import Mathlib

/-!
Verification of the Ordering & Lookup Toolkit of the citybike repository
(`src/citybike/algorithms.py`): merge sort, insertion sort, binary search,
linear search and the benchmarking harness.

The Python functions are shallowly embedded as Lean functions over `List α`
with a key projection `key : α → β` into a linear order, mirroring the source
line by line.  Python integers are `Int`/`Nat`; Python floor division `//` is
`Int.fdiv`; a function that can raise is embedded with `Except` (the exception
carried as a message string).
-/

namespace CityBike

variable {α β : Type}

/-- The sequence `l` is sorted ascending by `key`:
`key l[i] ≤ key l[i+1]` for every adjacent pair of indices. -/
def sortedByKey [LinearOrder β] (key : α → β) (l : List α) : Prop :=
  l.Chain' (fun u v => key u ≤ key v)

/-- `_merge(left, right, key)` from the source: two-pointer walk; while both
lists are nonempty take the left head when `key(left[i]) <= key(right[j])`,
otherwise the right head; once one side is exhausted the remainder of the
other is appended unchanged. -/
def pymerge [LinearOrder β] (key : α → β) : List α → List α → List α
  | [], right => right
  | left, [] => left
  | a :: left, b :: right =>
    if key a ≤ key b then a :: pymerge key (left) (b :: right)
    else b :: pymerge key (a :: left) (right)
termination_by l r => l.length + r.length

/-- `merge_sort(data, key)` from the source: length ≤ 1 returns a copy of the
list; otherwise split at `mid = len(data) // 2`, sort the two halves
recursively and merge them with `_merge`. -/
def merge_sort [LinearOrder β] (data : List α) (key : α → β) : List α :=
  if data.length ≤ 1 then data
  else
    let mid := data.length / 2
    pymerge key (merge_sort (data.take mid) key) (merge_sort (data.drop mid) key)
termination_by data.length
decreasing_by
  · simp only [List.length_take]; omega
  · simp only [List.length_drop]; omega

/-- The inner `while` loop of `insertion_sort`, with the Python loop variable
`j` replaced by `jp = j + 1 ∈ [0, i]` so that it stays a natural number.
Python:
`while j >= 0 and key(a[j]) > key(current): a[j+1] = a[j]; j -= 1`
followed by `a[j+1] = current`.  Every index used is in range at every call
reached from `insertion_sort` (`jp ≤ i < len a`), so the `getD` default is
never consulted. -/
def shiftInsert [LinearOrder β] (key : α → β) (current : α) :
    List α → Nat → List α
  | a, 0 => a.set 0 current
  | a, j + 1 =>
    if key (a.getD j current) > key current then
      shiftInsert key current (a.set (j + 1) (a.getD j current)) j
    else a.set (j + 1) current

theorem shiftInsert_length [LinearOrder β] (key : α → β) (current : α) :
    ∀ (a : List α) (jp : Nat),
      (shiftInsert key current a jp).length = a.length := by
  intro a jp
  induction jp generalizing a with
  | zero => simp [shiftInsert]
  | succ j ih =>
    simp only [shiftInsert]
    split
    · rw [ih]; simp
    · simp

/-- The outer `for i in range(1, len(a))` loop of `insertion_sort`: at index
`i` it saves `current = a[i]` and runs the shifting inner loop. -/
def insertionPass [LinearOrder β] (key : α → β) (a : List α) (i : Nat) :
    List α :=
  if h : i < a.length then
    insertionPass key (shiftInsert key (a.get ⟨i, h⟩) a i) (i + 1)
  else a
termination_by a.length - i
decreasing_by
  rw [shiftInsert_length]; omega

/-- `insertion_sort(data, key)` from the source: copy the input
(`a = data.copy()`; value passing in the embedding) and run the pass starting
at index 1. -/
def insertion_sort [LinearOrder β] (data : List α) (key : α → β) : List α :=
  insertionPass key data 1

/-- The `while low <= high` loop of `binary_search`.  `low`/`high` are Python
ints (so `high` may be `-1`); `mid = (low + high) // 2` is Python floor
division, i.e. `Int.fdiv`.  The subscript `sorted_data[mid]` is embedded with
`get?`; the `none` branch (Python would raise `IndexError`) is unreachable
from `binary_search`, where `0 ≤ low` and `high < len` always hold. -/
def bsLoop [LinearOrder β] (key : α → β) (data : List α) (target : β)
    (low high : Int) : Option Nat :=
  if low ≤ high then
    let mid : Int := (low + high).fdiv 2
    match data.get? mid.toNat with
    | none => none
    | some v =>
      if key v = target then some mid.toNat
      else if key v < target then bsLoop key data target (mid + 1) high
      else bsLoop key data target low (mid - 1)
  else none
termination_by (high + 1 - low).toNat
decreasing_by
  · rw [Int.fdiv_eq_ediv _ (by norm_num)] at *; omega
  · rw [Int.fdiv_eq_ediv _ (by norm_num)] at *; omega

/-- `binary_search(sorted_data, target, key)` from the source:
`low, high = 0, len(sorted_data) - 1`, then the bisection loop; `None` is
`Option.none`. -/
def binary_search [LinearOrder β] (sorted_data : List α) (target : β)
    (key : α → β) : Option Nat :=
  bsLoop key sorted_data target 0 ((sorted_data.length : Int) - 1)

/-- The message of the exception `linear_search` raises. -/
def pyNameError : String := "NameError: name sorted_data is not defined"

/-- `linear_search(data, target, key)` from the source.  Its body is the
bisection loop of `binary_search` copied verbatim, but it subscripts
`sorted_data`, a name defined neither in the function nor at module scope.
So when the loop is entered (i.e. `low <= high`, which with `low = 0`,
`high = len(data) - 1` means the list is nonempty) the very first statement
of the body raises `NameError`; on an empty list the loop is skipped and the
function returns `None`. -/
def linear_search (data : List α) (target : β) (key : α → β) :
    Except String (Option Nat) :=
  let _ := target
  let _ := key
  let low : Int := 0
  let high : Int := (data.length : Int) - 1
  if low ≤ high then Except.error pyNameError
  else Except.ok none

/-- Python `round(x, 2)`: round to 2 decimal places, halves to even
(modelled on rationals). -/
def pyround2 (x : ℚ) : ℚ :=
  let y := x * 100
  let f : ℤ := ⌊y⌋
  let r : ℤ :=
    if y - f < 1 / 2 then f
    else if (1 : ℚ) / 2 < y - f then f + 1
    else if 2 ∣ f then f else f + 1
  (r : ℚ) / 100

/-- `benchmark_sort(data, key, repeats)` from the source.  `timeit.timeit`
measures wall-clock seconds of `repeats` calls of the closure; the two
measured totals are environment inputs, modelled as the nonnegative rational
parameters `custom_time` and `builtin_time`.  `merge_sort` and the built-in
`sorted` are total, so the function always returns its dict, here an
association list. -/
def benchmark_sort [LinearOrder β] (data : List α) (key : α → β)
    (repeats : Nat) (custom_time builtin_time : ℚ) : List (String × ℚ) :=
  let _ := data
  [("merge_sort_ms", pyround2 (custom_time / repeats * 1000)),
   ("builtin_sorted_ms", pyround2 (builtin_time / repeats * 1000))]

/-- `benchmark_search(data, target, key, repeats)` from the source.  It first
builds `sorted_data = sorted(data, key=key)` (built-in stable sort, modelled
by `merge_sort`), times `binary_search` on it (total, never raises), then
times `linear_search` on `data`: `timeit` re-raises any exception of the
timed closure, so the `NameError` of `linear_search` propagates and the
function raises before building its dict whenever `data` is nonempty.  The
three measured totals are the parameters `binary_time`, `linear_time`,
`builtin_time`. -/
def benchmark_search [LinearOrder β] (data : List α) (target : β)
    (key : α → β) (repeats : Nat)
    (binary_time linear_time builtin_time : ℚ) :
    Except String (List (String × ℚ)) :=
  let sorted_data := merge_sort data key
  let _ := binary_search sorted_data target key
  match linear_search data target key with
  | Except.error e => Except.error e
  | Except.ok _ =>
    Except.ok
      [("binary_search_ms", pyround2 (binary_time / repeats * 1000)),
       ("linear_search_ms", pyround2 (linear_time / repeats * 1000)),
       ("builtin_in_ms", pyround2 (builtin_time / repeats * 1000))]

/-- Caller view of `merge_sort` with the mutable state explicit: the result
together with the buffer the caller's `data` reference points to after the
call.  The body of `merge_sort` performs no subscript assignment at all: it
only reads `data` (the base case `list(data)` and the slices `data[:mid]`,
`data[mid:]` allocate fresh lists), so the caller's buffer is returned as it
came in. -/
def merge_sort_call [LinearOrder β] (data : List α) (key : α → β) :
    List α × List α :=
  (merge_sort data key, data)

/-- Caller view of `insertion_sort` with the mutable state explicit: the
result together with the buffer the caller's `data` reference points to after
the call.  The first statement `a = data.copy()` allocates a fresh buffer and
every subscript assignment in the function (`a[j+1] = ...`) targets `a`, so
the caller's buffer is returned as it came in. -/
def insertion_sort_call [LinearOrder β] (data : List α) (key : α → β) :
    List α × List α :=
  (insertionPass key data 1, data)

/-! ### Basic facts about the order relation induced by `key` -/

theorem sortedByKey_iff_pairwise [LinearOrder β] (key : α → β) (l : List α) :
    sortedByKey key l ↔ l.Pairwise (fun u v => key u ≤ key v) := by
  haveI : IsTrans α (fun u v => key u ≤ key v) :=
    ⟨fun a b c h1 h2 => le_trans h1 h2⟩
  exact List.chain'_iff_pairwise

theorem pairwise_of_length_le_one {R : α → α → Prop} :
    ∀ l : List α, l.length ≤ 1 → l.Pairwise R
  | [], _ => List.Pairwise.nil
  | [a], _ => List.pairwise_singleton R a
  | _ :: _ :: _, h => absurd h (by simp)

/-! ### Correctness of `_merge` -/

theorem pymerge_perm [LinearOrder β] (key : α → β) :
    ∀ l r : List α, (pymerge key l r).Perm (l ++ r)
  | [], r => by simp [pymerge]
  | a :: l, [] => by simp [pymerge]
  | a :: l, b :: r => by
    simp only [pymerge]
    split
    · exact (pymerge_perm key l (b :: r)).cons a
    · exact ((pymerge_perm key (a :: l) r).cons b).trans List.perm_middle.symm
termination_by l r => l.length + r.length

theorem pymerge_pairwise [LinearOrder β] (key : α → β) :
    ∀ l r : List α, l.Pairwise (fun u v => key u ≤ key v) →
      r.Pairwise (fun u v => key u ≤ key v) →
      (pymerge key l r).Pairwise (fun u v => key u ≤ key v)
  | [], r, _, hr => by simpa [pymerge] using hr
  | a :: l, [], hl, _ => by simpa [pymerge] using hl
  | a :: l, b :: r, hl, hr => by
    simp only [pymerge]
    rw [List.pairwise_cons] at hl hr
    split
    case isTrue hab =>
      rw [List.pairwise_cons]
      refine ⟨?_, pymerge_pairwise key l (b :: r) hl.2 (List.pairwise_cons.mpr hr)⟩
      intro x hx
      rcases List.mem_append.mp ((pymerge_perm key l (b :: r)).subset hx) with h | h
      · exact hl.1 x h
      · rcases List.mem_cons.mp h with rfl | h
        · exact hab
        · exact le_trans hab (hr.1 x h)
    case isFalse hab =>
      have hba : key b ≤ key a := le_of_lt (not_le.mp hab)
      rw [List.pairwise_cons]
      refine ⟨?_, pymerge_pairwise key (a :: l) r (List.pairwise_cons.mpr hl) hr.2⟩
      intro x hx
      rcases List.mem_append.mp ((pymerge_perm key (a :: l) r).subset hx) with h | h
      · rcases List.mem_cons.mp h with rfl | h
        · exact hba
        · exact le_trans hba (hl.1 x h)
      · exact hr.1 x h
termination_by l r => l.length + r.length

theorem pymerge_eq_append [LinearOrder β] (key : α → β) :
    ∀ l r : List α, (∀ x ∈ l, ∀ y ∈ r, key x ≤ key y) → pymerge key l r = l ++ r
  | [], r, _ => by simp [pymerge]
  | a :: l, [], _ => by simp [pymerge]
  | a :: l, b :: r, h => by
    simp only [pymerge]
    rw [if_pos (h a (List.mem_cons_self a l) b (List.mem_cons_self b r))]
    rw [pymerge_eq_append key l (b :: r)
      (fun x hx y hy => h x (List.mem_cons_of_mem a hx) y hy)]
    rfl
termination_by l r => l.length + r.length

theorem pymerge_filter [LinearOrder β] (key : α → β) (k : β) :
    ∀ l r : List α, l.Pairwise (fun u v => key u ≤ key v) →
      (pymerge key l r).filter (fun e => decide (key e = k)) =
        l.filter (fun e => decide (key e = k)) ++
          r.filter (fun e => decide (key e = k))
  | [], r, _ => by simp [pymerge]
  | a :: l, [], _ => by simp [pymerge]
  | a :: l, b :: r, hl => by
    simp only [pymerge]
    rw [List.pairwise_cons] at hl
    split
    case isTrue hab =>
      rw [List.filter_cons, List.filter_cons,
        pymerge_filter key k l (b :: r) hl.2]
      split <;> simp
    case isFalse hab =>
      have hba : key b < key a := not_le.mp hab
      rw [List.filter_cons (x := b), List.filter_cons (x := b),
        pymerge_filter key k (a :: l) r (List.pairwise_cons.mpr hl)]
      by_cases hpb : key b = k
      · have hnil : (a :: l).filter (fun e => decide (key e = k)) = [] := by
          rw [List.filter_eq_nil_iff]
          intro x hx
          have hbx : key b < key x := by
            rcases List.mem_cons.mp hx with rfl | h
            · exact hba
            · exact lt_of_lt_of_le hba (hl.1 x h)
          simp only [decide_eq_true_eq]
          intro hk
          exact absurd (hk ▸ hbx) (by simp [hpb])
        simp [hpb, hnil]
      · simp [hpb]
termination_by l r => l.length + r.length

/-! ### Correctness of `merge_sort` -/

theorem merge_sort_perm [LinearOrder β] (key : α → β) :
    ∀ data : List α, (merge_sort data key).Perm data
  | data => by
    rw [merge_sort]
    split
    · exact List.Perm.refl _
    · next h =>
      refine (pymerge_perm key _ _).trans ?_
      refine ((merge_sort_perm key _).append (merge_sort_perm key _)).trans ?_
      rw [List.take_append_drop]
termination_by data => data.length
decreasing_by
  · simp only [List.length_take]; omega
  · simp only [List.length_drop]; omega

theorem merge_sort_pairwise [LinearOrder β] (key : α → β) :
    ∀ data : List α, (merge_sort data key).Pairwise (fun u v => key u ≤ key v)
  | data => by
    rw [merge_sort]
    split
    · next h => exact pairwise_of_length_le_one data h
    · exact pymerge_pairwise key _ _
        (merge_sort_pairwise key _) (merge_sort_pairwise key _)
termination_by data => data.length
decreasing_by
  · simp only [List.length_take]; omega
  · simp only [List.length_drop]; omega

theorem merge_sort_filter [LinearOrder β] (key : α → β) (k : β) :
    ∀ data : List α,
      (merge_sort data key).filter (fun e => decide (key e = k)) =
        data.filter (fun e => decide (key e = k))
  | data => by
    rw [merge_sort]
    split
    · rfl
    · rw [pymerge_filter key k _ _ (merge_sort_pairwise key _),
        merge_sort_filter key k _, merge_sort_filter key k _,
        ← List.filter_append, List.take_append_drop]
termination_by data => data.length
decreasing_by
  · simp only [List.length_take]; omega
  · simp only [List.length_drop]; omega

theorem merge_sort_eq_of_pairwise [LinearOrder β] (key : α → β) :
    ∀ data : List α, data.Pairwise (fun u v => key u ≤ key v) →
      merge_sort data key = data
  | data, h => by
    rw [merge_sort]
    split
    · rfl
    · next hlen =>
      have ht := List.Pairwise.sublist (List.take_sublist (data.length / 2) data) h
      have hd := List.Pairwise.sublist (List.drop_sublist (data.length / 2) data) h
      dsimp only
      rw [merge_sort_eq_of_pairwise key _ ht, merge_sort_eq_of_pairwise key _ hd,
        pymerge_eq_append key _ _ ?_, List.take_append_drop]
      have h' := h
      rw [← List.take_append_drop (data.length / 2) data, List.pairwise_append] at h'
      exact h'.2.2
termination_by data => data.length
decreasing_by
  · simp only [List.length_take]; omega
  · simp only [List.length_drop]; omega

/-! ### A functional description of the insertion loop -/

/-- Stable insertion of `x` into `l`: `x` goes immediately before the first
element whose key strictly exceeds `key x`.  On a sorted prefix this is the
net effect of the shifting inner loop of `insertion_sort`. -/
def stableInsert [LinearOrder β] (key : α → β) (x : α) : List α → List α
  | [] => [x]
  | b :: l => if key x < key b then x :: b :: l else b :: stableInsert key x l

/-- Insert the elements of the second list one after the other into the
accumulator; the net effect of the outer loop of `insertion_sort`. -/
def stableInsertAll [LinearOrder β] (key : α → β) (acc : List α) :
    List α → List α
  | [] => acc
  | x :: rest => stableInsertAll key (stableInsert key x acc) rest

theorem stableInsert_length [LinearOrder β] (key : α → β) (x : α)
    (l : List α) : (stableInsert key x l).length = l.length + 1 := by
  induction l with
  | nil => rfl
  | cons b l ih => simp only [stableInsert]; split <;> simp [ih]

theorem stableInsert_perm [LinearOrder β] (key : α → β) (x : α) (l : List α) :
    (stableInsert key x l).Perm (x :: l) := by
  induction l with
  | nil => exact List.Perm.refl _
  | cons b l ih =>
    simp only [stableInsert]
    split
    · exact List.Perm.refl _
    · exact (ih.cons b).trans (List.Perm.swap x b l)

theorem stableInsert_pairwise [LinearOrder β] (key : α → β) (x : α)
    (l : List α) (h : l.Pairwise (fun u v => key u ≤ key v)) :
    (stableInsert key x l).Pairwise (fun u v => key u ≤ key v) := by
  induction l with
  | nil => exact List.pairwise_singleton _ x
  | cons b l ih =>
    rw [List.pairwise_cons] at h
    simp only [stableInsert]
    split
    case isTrue hxb =>
      rw [List.pairwise_cons]
      refine ⟨?_, List.pairwise_cons.mpr h⟩
      intro y hy
      rcases List.mem_cons.mp hy with rfl | hy
      · exact le_of_lt hxb
      · exact le_trans (le_of_lt hxb) (h.1 y hy)
    case isFalse hxb =>
      rw [List.pairwise_cons]
      refine ⟨?_, ih h.2⟩
      intro y hy
      rcases List.mem_cons.mp ((stableInsert_perm key x l).subset hy) with rfl | hy
      · exact not_lt.mp hxb
      · exact h.1 y hy

theorem stableInsert_eq_append [LinearOrder β] (key : α → β) (x : α)
    (l : List α) (h : ∀ c ∈ l, ¬ key x < key c) :
    stableInsert key x l = l ++ [x] := by
  induction l with
  | nil => rfl
  | cons b l ih =>
    simp only [stableInsert]
    rw [if_neg (h b (List.mem_cons_self b l))]
    rw [ih (fun c hc => h c (List.mem_cons_of_mem b hc))]
    rfl

theorem stableInsert_append_single [LinearOrder β] (key : α → β) (x b : α)
    (hxb : key x < key b) (p : List α) :
    stableInsert key x (p ++ [b]) = stableInsert key x p ++ [b] := by
  induction p with
  | nil => simp [stableInsert, hxb]
  | cons c p ih =>
    simp only [List.cons_append, stableInsert]
    split <;> simp [ih]

theorem stableInsert_filter [LinearOrder β] (key : α → β) (k : β) (x : α)
    (l : List α) (h : l.Pairwise (fun u v => key u ≤ key v)) :
    (stableInsert key x l).filter (fun e => decide (key e = k)) =
      if key x = k then l.filter (fun e => decide (key e = k)) ++ [x]
      else l.filter (fun e => decide (key e = k)) := by
  induction l with
  | nil => by_cases hxk : key x = k <;> simp [stableInsert, hxk]
  | cons b l ih =>
    rw [List.pairwise_cons] at h
    simp only [stableInsert]
    split
    case isTrue hxb =>
      by_cases hxk : key x = k
      · have hnil : (b :: l).filter (fun e => decide (key e = k)) = [] := by
          rw [List.filter_eq_nil_iff]
          intro c hc
          have hxc : key x < key c := by
            rcases List.mem_cons.mp hc with rfl | hc
            · exact hxb
            · exact lt_of_lt_of_le hxb (h.1 c hc)
          simp only [decide_eq_true_eq]
          intro hk
          exact absurd (hk ▸ hxc) (by simp [hxk])
        simp [List.filter_cons, hxk, hnil]
      · simp [List.filter_cons, hxk]
    case isFalse hxb =>
      rw [List.filter_cons, List.filter_cons (x := b), ih h.2]
      by_cases hbk : key b = k <;> by_cases hxk : key x = k <;>
        simp [hbk, hxk]

/-! ### The imperative loops compute `stableInsertAll` -/

theorem shiftInsert_spec [LinearOrder β] (key : α → β) (x : α) (p : List α) :
    ∀ (y : α) (s : List α), p.Pairwise (fun u v => key u ≤ key v) →
      shiftInsert key x (p ++ y :: s) p.length = stableInsert key x p ++ s := by
  induction p using List.reverseRecOn with
  | nil =>
    intro y s _
    simp [shiftInsert, stableInsert]
  | append_singleton p b ih =>
    intro y s hp
    have hp' : p.Pairwise (fun u v => key u ≤ key v) :=
      List.Pairwise.sublist (List.sublist_append_left p [b]) hp
    have hlen : (p ++ [b]).length = p.length + 1 := by simp
    rw [hlen]
    simp only [shiftInsert]
    have hget : ((p ++ [b]) ++ y :: s).getD p.length x = b := by
      rw [List.append_assoc, List.getD_append_right _ _ _ _ (le_refl p.length)]
      simp
    rw [hget]
    split
    case isTrue hbx =>
      rw [List.set_append_right _ _ (by simp)]
      have hidx : p.length + 1 - (p ++ [b]).length = 0 := by simp
      rw [hidx]
      have hres : ((p ++ [b]) ++ (y :: s).set 0 b) = p ++ b :: b :: s := by
        simp
      rw [hres, ← List.singleton_append, ← List.append_assoc,
        stableInsert_append_single key x b hbx]
      have := ih b (b :: s) hp'
      rw [← List.singleton_append, ← List.append_assoc] at this ⊢
      simpa using this
    case isFalse hbx =>
      rw [List.set_append_right _ _ (by simp)]
      have hidx : p.length + 1 - (p ++ [b]).length = 0 := by simp
      rw [hidx]
      have hall : ∀ c ∈ p ++ [b], ¬ key x < key c := by
        intro c hc
        rcases List.mem_append.mp hc with hc | hc
        · have hcb : key c ≤ key b := by
            rw [List.pairwise_append] at hp
            exact hp.2.2 c hc b (List.mem_cons_self b [])
          exact fun hlt => hbx (lt_of_lt_of_le hlt hcb)
        · rcases List.mem_cons.mp hc with rfl | hc
          · exact hbx
          · exact absurd hc (List.not_mem_nil c)
      rw [stableInsert_eq_append key x _ hall]
      simp

theorem stableInsertAll_perm [LinearOrder β] (key : α → β) :
    ∀ (rest acc : List α), (stableInsertAll key acc rest).Perm (acc ++ rest)
  | [], acc => by simp [stableInsertAll]
  | x :: rest, acc => by
    simp only [stableInsertAll]
    refine (stableInsertAll_perm key rest _).trans ?_
    refine ((stableInsert_perm key x acc).append_right rest).trans ?_
    exact List.perm_middle.symm

theorem stableInsertAll_pairwise [LinearOrder β] (key : α → β) :
    ∀ (rest acc : List α), acc.Pairwise (fun u v => key u ≤ key v) →
      (stableInsertAll key acc rest).Pairwise (fun u v => key u ≤ key v)
  | [], _, h => h
  | x :: rest, acc, h =>
    stableInsertAll_pairwise key rest _ (stableInsert_pairwise key x acc h)

theorem stableInsertAll_filter [LinearOrder β] (key : α → β) (k : β) :
    ∀ (rest acc : List α), acc.Pairwise (fun u v => key u ≤ key v) →
      (stableInsertAll key acc rest).filter (fun e => decide (key e = k)) =
        acc.filter (fun e => decide (key e = k)) ++
          rest.filter (fun e => decide (key e = k))
  | [], acc, _ => by simp [stableInsertAll]
  | x :: rest, acc, h => by
    simp only [stableInsertAll]
    rw [stableInsertAll_filter key k rest _ (stableInsert_pairwise key x acc h),
      stableInsert_filter key k x acc h, List.filter_cons (x := x)]
    by_cases hxk : key x = k <;> simp [hxk]

theorem stableInsertAll_eq_of_pairwise [LinearOrder β] (key : α → β) :
    ∀ (rest acc : List α),
      (acc ++ rest).Pairwise (fun u v => key u ≤ key v) →
      stableInsertAll key acc rest = acc ++ rest
  | [], acc, _ => by simp [stableInsertAll]
  | x :: rest, acc, h => by
    simp only [stableInsertAll]
    have hx : ∀ c ∈ acc, ¬ key x < key c := by
      rw [List.pairwise_append] at h
      intro c hc hlt
      exact absurd (h.2.2 c hc x (List.mem_cons_self x rest)) (not_le.mpr hlt)
    rw [stableInsert_eq_append key x acc hx]
    have hassoc : (acc ++ [x]) ++ rest = acc ++ x :: rest := by simp
    rw [stableInsertAll_eq_of_pairwise key rest (acc ++ [x]) (by rw [hassoc]; exact h)]
    exact hassoc

theorem insertionPass_spec [LinearOrder β] (key : α → β) :
    ∀ (a : List α) (i : Nat),
      (a.take i).Pairwise (fun u v => key u ≤ key v) →
      insertionPass key a i = stableInsertAll key (a.take i) (a.drop i)
  | a, i, h => by
    rw [insertionPass]
    split
    case isTrue hi =>
      have hdecomp : a = a.take i ++ a.get ⟨i, hi⟩ :: a.drop (i + 1) := by
        conv_lhs => rw [← List.take_append_drop i a]
        rw [List.get_cons_drop a ⟨i, hi⟩]
      have hlen : (a.take i).length = i := by
        simp only [List.length_take]; omega
      have hshift := shiftInsert_spec key (a.get ⟨i, hi⟩) (a.take i)
        (a.get ⟨i, hi⟩) (a.drop (i + 1)) h
      rw [hlen, ← hdecomp] at hshift
      rw [hshift]
      have hAlen : (stableInsert key (a.get ⟨i, hi⟩) (a.take i) ++
          a.drop (i + 1)).length = a.length := by
        simp only [List.length_append, stableInsert_length, List.length_drop]
        omega
      have htake : (stableInsert key (a.get ⟨i, hi⟩) (a.take i) ++
          a.drop (i + 1)).take (i + 1) =
            stableInsert key (a.get ⟨i, hi⟩) (a.take i) :=
        List.take_left' (by rw [stableInsert_length, hlen])
      have hdrop : (stableInsert key (a.get ⟨i, hi⟩) (a.take i) ++
          a.drop (i + 1)).drop (i + 1) = a.drop (i + 1) :=
        List.drop_left' (by rw [stableInsert_length, hlen])
      rw [insertionPass_spec key _ (i + 1)
          (by rw [htake]; exact stableInsert_pairwise key _ _ h),
        htake, hdrop]
      conv_rhs => rw [← List.get_cons_drop a ⟨i, hi⟩]
      rfl
    case isFalse hi =>
      rw [List.take_of_length_le (by omega), List.drop_eq_nil_of_le (by omega)]
      rfl
termination_by a i => a.length - i
decreasing_by
  rw [hAlen]; omega

theorem insertion_sort_eq_stableInsertAll [LinearOrder β] (key : α → β)
    (data : List α) : insertion_sort data key = stableInsertAll key [] data := by
  have h := insertionPass_spec key data 1
    (pairwise_of_length_le_one _ (by simp only [List.length_take]; omega))
  rw [insertion_sort, h]
  cases data with
  | nil => rfl
  | cons d rest => simp [stableInsertAll, stableInsert]

theorem insertion_sort_perm [LinearOrder β] (key : α → β) (data : List α) :
    (insertion_sort data key).Perm data := by
  rw [insertion_sort_eq_stableInsertAll]
  simpa using stableInsertAll_perm key data []

theorem insertion_sort_pairwise [LinearOrder β] (key : α → β) (data : List α) :
    (insertion_sort data key).Pairwise (fun u v => key u ≤ key v) := by
  rw [insertion_sort_eq_stableInsertAll]
  exact stableInsertAll_pairwise key data [] List.Pairwise.nil

theorem insertion_sort_filter [LinearOrder β] (key : α → β) (k : β)
    (data : List α) :
    (insertion_sort data key).filter (fun e => decide (key e = k)) =
      data.filter (fun e => decide (key e = k)) := by
  rw [insertion_sort_eq_stableInsertAll]
  simpa using stableInsertAll_filter key k data [] List.Pairwise.nil

theorem insertion_sort_eq_of_pairwise [LinearOrder β] (key : α → β)
    (data : List α) (h : data.Pairwise (fun u v => key u ≤ key v)) :
    insertion_sort data key = data := by
  rw [insertion_sort_eq_stableInsertAll]
  exact stableInsertAll_eq_of_pairwise key data [] (by simpa using h)

/-! ### Correctness of `binary_search` -/

theorem pairwise_key_get_mono [LinearOrder β] (key : α → β) (data : List α)
    (h : data.Pairwise (fun u v => key u ≤ key v))
    (i j : Fin data.length) (hij : (i : Nat) ≤ (j : Nat)) :
    key (data.get i) ≤ key (data.get j) := by
  rcases Nat.lt_or_ge (i : Nat) (j : Nat) with hlt | hge
  · exact List.pairwise_iff_get.mp h i j hlt
  · have heq : i = j := Fin.ext (le_antisymm hij hge)
    rw [heq]

theorem bsLoop_some_sound [LinearOrder β] (key : α → β) (data : List α)
    (target : β) :
    ∀ (low high : Int) (i : Nat),
      bsLoop key data target low high = some i →
      ∃ h : i < data.length, key (data.get ⟨i, h⟩) = target
  | low, high, i, heq => by
    rw [bsLoop] at heq
    split at heq
    case isFalse hlh => simp at heq
    case isTrue hlh =>
      dsimp only at heq
      split at heq
      case h_1 => simp at heq
      case h_2 v hv =>
        split at heq
        case isTrue hkv =>
          obtain rfl : ((low + high).fdiv 2).toNat = i := Option.some.inj heq
          obtain ⟨hlt, hgv⟩ := List.get?_eq_some.mp hv
          exact ⟨hlt, by rw [hgv]; exact hkv⟩
        case isFalse =>
          split at heq
          · exact bsLoop_some_sound key data target _ high i heq
          · exact bsLoop_some_sound key data target low _ i heq
termination_by low high => (high + 1 - low).toNat
decreasing_by
  · rw [Int.fdiv_eq_ediv _ (by norm_num)] at *; omega
  · rw [Int.fdiv_eq_ediv _ (by norm_num)] at *; omega

theorem bsLoop_finds [LinearOrder β] (key : α → β) (data : List α)
    (target : β)
    (hsorted : data.Pairwise (fun u v => key u ≤ key v)) :
    ∀ (low high : Int),
      0 ≤ low → high ≤ (data.length : Int) - 1 →
      (∃ j : Fin data.length, low ≤ ((j : Nat) : Int) ∧
        ((j : Nat) : Int) ≤ high ∧ key (data.get j) = target) →
      ∃ i : Nat, bsLoop key data target low high = some i
  | low, high, hlow, hhigh, ⟨j, hjl, hjh, hjt⟩ => by
    have hlh : low ≤ high := le_trans hjl hjh
    rw [bsLoop, if_pos hlh]
    dsimp only
    have hmid : low ≤ (low + high).fdiv 2 ∧ (low + high).fdiv 2 ≤ high := by
      rw [Int.fdiv_eq_ediv _ (by norm_num)]; omega
    have hmidlt : ((low + high).fdiv 2).toNat < data.length := by omega
    rw [List.get?_eq_get hmidlt]
    dsimp only
    by_cases hkv :
        key (data.get ⟨((low + high).fdiv 2).toNat, hmidlt⟩) = target
    · rw [if_pos hkv]; exact ⟨_, rfl⟩
    · rw [if_neg hkv]
      by_cases hlt :
          key (data.get ⟨((low + high).fdiv 2).toNat, hmidlt⟩) < target
      · rw [if_pos hlt]
        have hjgt : (low + high).fdiv 2 + 1 ≤ ((j : Nat) : Int) := by
          by_contra hcon
          push_neg at hcon
          have hmono := pairwise_key_get_mono key data hsorted j
            ⟨((low + high).fdiv 2).toNat, hmidlt⟩
            (by show (j : Nat) ≤ ((low + high).fdiv 2).toNat; omega)
          rw [hjt] at hmono
          exact absurd (lt_of_le_of_lt hmono hlt) (lt_irrefl target)
        exact bsLoop_finds key data target hsorted _ high (by omega) hhigh
          ⟨j, hjgt, hjh, hjt⟩
      · rw [if_neg hlt]
        have htgt :
            target < key (data.get ⟨((low + high).fdiv 2).toNat, hmidlt⟩) :=
          lt_of_le_of_ne (not_lt.mp hlt) (fun h => hkv h.symm)
        have hjlt : ((j : Nat) : Int) ≤ (low + high).fdiv 2 - 1 := by
          by_contra hcon
          push_neg at hcon
          have hmono := pairwise_key_get_mono key data hsorted
            ⟨((low + high).fdiv 2).toNat, hmidlt⟩ j
            (by show ((low + high).fdiv 2).toNat ≤ (j : Nat); omega)
          rw [hjt] at hmono
          exact absurd (lt_of_le_of_lt hmono htgt) (lt_irrefl _)
        exact bsLoop_finds key data target hsorted low _ hlow (by omega)
          ⟨j, hjl, hjlt, hjt⟩
termination_by low high => (high + 1 - low).toNat
decreasing_by
  · rw [Int.fdiv_eq_ediv _ (by norm_num)] at *; omega
  · rw [Int.fdiv_eq_ediv _ (by norm_num)] at *; omega

theorem binary_search_some_sound [LinearOrder β] (key : α → β)
    (data : List α) (target : β) (i : Nat)
    (h : binary_search data target key = some i) :
    ∃ hi : i < data.length, key (data.get ⟨i, hi⟩) = target :=
  bsLoop_some_sound key data target 0 ((data.length : Int) - 1) i h

theorem binary_search_finds [LinearOrder β] (key : α → β) (data : List α)
    (e : α) (hsorted : data.Pairwise (fun u v => key u ≤ key v))
    (he : e ∈ data) :
    ∃ i : Nat, binary_search data (key e) key = some i := by
  obtain ⟨j, hj⟩ := List.mem_iff_get.mp he
  exact bsLoop_finds key data (key e) hsorted 0 ((data.length : Int) - 1)
    (le_refl 0)
    (le_refl _)
    ⟨j, by omega, by have := j.isLt; omega, by rw [hj]⟩

theorem binary_search_not_found [LinearOrder β] (key : α → β)
    (data : List α) (target : β) (h : ∀ x ∈ data, key x ≠ target) :
    binary_search data target key = none := by
  cases heq : binary_search data target key with
  | none => rfl
  | some i =>
    obtain ⟨hi, hkey⟩ := binary_search_some_sound key data target i heq
    exact absurd hkey (h _ (data.get_mem i hi))

/-! ### The claims -/

/-- C1: for every finite sequence `S` and key function, `merge_sort` and
`insertion_sort` each return a sequence that is equal to `S` as a multiset
and is sorted ascending by key (`key result[i] ≤ key result[i+1]` for every
adjacent pair of indices, which is `sortedByKey`). -/
theorem merge_and_insertion_sort_correct [LinearOrder β] (key : α → β)
    (S : List α) :
    ((merge_sort S key : Multiset α) = (S : Multiset α) ∧
      sortedByKey key (merge_sort S key)) ∧
    ((insertion_sort S key : Multiset α) = (S : Multiset α) ∧
      sortedByKey key (insertion_sort S key)) := by
  refine ⟨⟨?_, ?_⟩, ?_, ?_⟩
  · exact Multiset.coe_eq_coe.mpr (merge_sort_perm key S)
  · exact (sortedByKey_iff_pairwise key _).mpr (merge_sort_pairwise key S)
  · exact Multiset.coe_eq_coe.mpr (insertion_sort_perm key S)
  · exact (sortedByKey_iff_pairwise key _).mpr (insertion_sort_pairwise key S)

/-- C2: both sorts are stable: for every key value `k`, the subsequence of
elements whose key equals `k` is exactly the same (same elements, same
relative order) in the output as in the input. -/
theorem merge_and_insertion_sort_stable [LinearOrder β] (key : α → β)
    (S : List α) (k : β) :
    (merge_sort S key).filter (fun e => decide (key e = k)) =
        S.filter (fun e => decide (key e = k)) ∧
    (insertion_sort S key).filter (fun e => decide (key e = k)) =
        S.filter (fun e => decide (key e = k)) :=
  ⟨merge_sort_filter key k S, insertion_sort_filter key k S⟩

/-- C3: the claim says `linear_search([5,3,3,7], 3)` with identity key
returns index 1 (the first match).  The code instead raises `NameError` on
this input (its body is a bisection over the undefined name `sorted_data`),
so the claim describes the documented intent, not the code: evaluating the
embedding at the claimed input yields the exception, not an index. -/
theorem linear_search_raises_on_spec_example :
    linear_search ([5, 3, 3, 7] : List Int) 3 id =
      Except.error pyNameError := by
  simp [linear_search]

/-- C4: for a sequence sorted ascending by `key` and any element `e` of it,
`binary_search` returns some index whose key equals `key e`; for a target
whose key matches no element it returns `None`. -/
theorem binary_search_correct [LinearOrder β] (key : α → β) (S : List α)
    (e : α) (target : β) :
    (sortedByKey key S → e ∈ S →
      ∃ i, binary_search S (key e) key = some i ∧
        ∃ hi : i < S.length, key (S.get ⟨i, hi⟩) = key e) ∧
    (sortedByKey key S → (∀ x ∈ S, key x ≠ target) →
      binary_search S target key = none) := by
  constructor
  · intro hs he
    obtain ⟨i, hi⟩ :=
      binary_search_finds key S e ((sortedByKey_iff_pairwise key S).mp hs) he
    obtain ⟨hlt, hk⟩ := binary_search_some_sound key S (key e) i hi
    exact ⟨i, hi, hlt, hk⟩
  · intro _ h
    exact binary_search_not_found key S target h

/-- Witness for C4 at the spec scenario `binary_search([1,2,3,4,5], 4) = 3`
and at the absent target `6`. -/
theorem binary_search_correct_witness :
    sortedByKey (id : Int → Int) [1, 2, 3, 4, 5] ∧
    (4 : Int) ∈ ([1, 2, 3, 4, 5] : List Int) ∧
    (∀ x ∈ ([1, 2, 3, 4, 5] : List Int), id x ≠ (6 : Int)) ∧
    (∃ i, binary_search ([1, 2, 3, 4, 5] : List Int) (id (4 : Int)) id =
        some i ∧
      ∃ hi : i < ([1, 2, 3, 4, 5] : List Int).length,
        id (([1, 2, 3, 4, 5] : List Int).get ⟨i, hi⟩) = id (4 : Int)) ∧
    binary_search ([1, 2, 3, 4, 5] : List Int) 6 id = none := by
  have hs : sortedByKey (id : Int → Int) [1, 2, 3, 4, 5] := by
    simp [sortedByKey, List.chain'_cons, List.chain'_singleton]
  exact ⟨hs, by decide, by decide,
    (binary_search_correct (id : Int → Int) [1, 2, 3, 4, 5] 4 6).1 hs
      (by decide),
    (binary_search_correct (id : Int → Int) [1, 2, 3, 4, 5] 4 6).2 hs
      (by decide)⟩

/-- C5: on an empty input both sorts return the empty sequence, and both
searches return not-found (`binary_search` returns `None`; `linear_search`
returns `None` without raising, because the loop it would crash in is never
entered). -/
theorem algorithms_on_empty_input [LinearOrder β] (key : α → β)
    (target : β) :
    merge_sort ([] : List α) key = [] ∧
    insertion_sort ([] : List α) key = [] ∧
    binary_search ([] : List α) target key = none ∧
    linear_search ([] : List α) target key = Except.ok none := by
  refine ⟨?_, ?_, ?_, ?_⟩
  · rw [merge_sort]; simp
  · rw [insertion_sort_eq_stableInsertAll]; rfl
  · simp [binary_search, bsLoop]
  · simp [linear_search]

/-- C6: neither sort mutates its input: in the caller-view embeddings, which
return the result together with the buffer the caller's reference points to
after the call, that buffer equals the input.  `merge_sort` performs no
subscript assignment (it only reads `data`; `list(data)` and the two slices
allocate fresh lists) and `insertion_sort` writes only to the fresh copy
`a = data.copy()`. -/
theorem sorts_leave_input_unchanged [LinearOrder β] (key : α → β)
    (data : List α) :
    (merge_sort_call data key).2 = data ∧
    (insertion_sort_call data key).2 = data :=
  ⟨rfl, rfl⟩

/-- C7: on input already sorted ascending by key, both sorts return the
input unchanged element for element; consequently both sorts are idempotent
on every input. -/
theorem sorts_idempotent [LinearOrder β] (key : α → β) (S T : List α) :
    (sortedByKey key S →
      merge_sort S key = S ∧ insertion_sort S key = S) ∧
    merge_sort (merge_sort T key) key = merge_sort T key ∧
    insertion_sort (insertion_sort T key) key = insertion_sort T key := by
  refine ⟨fun hs => ⟨?_, ?_⟩, ?_, ?_⟩
  · exact merge_sort_eq_of_pairwise key S
      ((sortedByKey_iff_pairwise key S).mp hs)
  · exact insertion_sort_eq_of_pairwise key S
      ((sortedByKey_iff_pairwise key S).mp hs)
  · exact merge_sort_eq_of_pairwise key _ (merge_sort_pairwise key T)
  · exact insertion_sort_eq_of_pairwise key _ (insertion_sort_pairwise key T)

/-- Witness for C7 at the sorted list `[1, 2, 2]` and the unsorted list
`[3, 1, 2]`. -/
theorem sorts_idempotent_witness :
    sortedByKey (id : Int → Int) [1, 2, 2] ∧
    (merge_sort ([1, 2, 2] : List Int) id = [1, 2, 2] ∧
      insertion_sort ([1, 2, 2] : List Int) id = [1, 2, 2]) ∧
    merge_sort (merge_sort ([3, 1, 2] : List Int) id) id =
      merge_sort ([3, 1, 2] : List Int) id ∧
    insertion_sort (insertion_sort ([3, 1, 2] : List Int) id) id =
      insertion_sort ([3, 1, 2] : List Int) id := by
  have hs : sortedByKey (id : Int → Int) [1, 2, 2] := by
    simp [sortedByKey, List.chain'_cons, List.chain'_singleton]
  have h := sorts_idempotent (id : Int → Int) [1, 2, 2] [3, 1, 2]
  exact ⟨hs, h.1 hs, h.2.1, h.2.2⟩

/-- C8: the claim says `benchmark_search` returns a dict of non-negative
millisecond values for every input size.  The code instead propagates the
`NameError` raised by `linear_search` as soon as the input is nonempty: at
`data = [1]`, `target = 1`, identity key, `repeats = 5` the embedding raises
for all measured times. -/
theorem benchmark_search_raises_on_singleton
    (binary_time linear_time builtin_time : ℚ) :
    benchmark_search ([1] : List Int) 1 id 5
        binary_time linear_time builtin_time =
      Except.error pyNameError := by
  simp [benchmark_search, linear_search]

/-- C9: on every nonempty input `linear_search` fails outright: its body is
a `low`/`high`/`mid` bisection that reads the undefined name `sorted_data`,
so the first loop iteration raises `NameError` instead of returning an index
or not-found. -/
theorem linear_search_raises_on_any_nonempty_list (data : List α)
    (target : β) (key : α → β) (h : data ≠ []) :
    linear_search data target key = Except.error pyNameError := by
  have hlen : 0 < data.length := List.length_pos.mpr h
  show (if (0 : Int) ≤ (data.length : Int) - 1 then
      (Except.error pyNameError : Except String (Option Nat))
    else Except.ok none) = Except.error pyNameError
  rw [if_pos (by omega)]

/-- Witness for C9 at `[5, 3, 3, 7]`, target 3, identity key. -/
theorem linear_search_raises_witness :
    ([5, 3, 3, 7] : List Int) ≠ [] ∧
    linear_search ([5, 3, 3, 7] : List Int) 3 id =
      Except.error pyNameError :=
  ⟨by decide,
    linear_search_raises_on_any_nonempty_list [5, 3, 3, 7] 3 id (by decide)⟩

/-- C10: `binary_search` never returns a false positive, sorted input or
not: whenever it returns `some i`, the index is in range and
`key data[i] = target`. -/
theorem binary_search_no_false_positive [LinearOrder β] (data : List α)
    (target : β) (key : α → β) (i : Nat)
    (h : binary_search data target key = some i) :
    ∃ hi : i < data.length, key (data.get ⟨i, hi⟩) = target :=
  binary_search_some_sound key data target i h

set_option maxHeartbeats 1000000 in
/-- Witness for C10 on the unsorted list `[5, 1, 4]` with target 1. -/
theorem binary_search_no_false_positive_witness :
    binary_search ([5, 1, 4] : List Int) 1 id = some 1 ∧
    ∃ hi : 1 < ([5, 1, 4] : List Int).length,
      id (([5, 1, 4] : List Int).get ⟨1, hi⟩) = (1 : Int) := by
  have h : binary_search ([5, 1, 4] : List Int) 1 id = some 1 := by
    simp [binary_search, bsLoop]
  exact ⟨h, binary_search_no_false_positive [5, 1, 4] 1 id 1 h⟩

end CityBike
